import Mathlib

/-
  Verification development for the warp-pipe-stdexec core:
  a shallow embedding of the small_vector container
  (src/oc/containers/small_vector.hpp), the generic SPSC ring buffer
  (BasicRingBuffer), the trivially-copyable ring (PodRingBuffer,
  src/oc/rb/pod_rb.hpp) with its zero-copy views, and the pipeline
  stage counter logic (Pipe::forward, src/oc/pipe.hpp).

  Machine counters (std::size_t / uint32_t) are modelled as Nat.  All
  C++ index arithmetic on the rings happens through (counter & mask)
  with a power-of-two capacity, and the counters only ever grow by at
  most the capacity per operation, so for every state reachable in the
  theorems below the Nat model and the mod-2^64 machine model agree;
  truncated Nat subtraction coincides with the machine subtraction
  under the invariant tail <= head carried by every theorem.
-/

namespace WarpPipe

/-! ## Small-sequence container: oc::containers::small_vector<T, N>

  Model of the fields that the spec claims range over: the template
  parameter N (stack_capacity), the dynamic capacity_, and the stored
  elements (data_ptr()[0 .. size_)).  All element writes performed by
  the modelled operations stay below the current capacity. -/

structure small_vector (α : Type) where
  stack_capacity : Nat
  capacity : Nat
  elems : List α
deriving Repr

namespace small_vector

variable {α : Type}

/-- size() returns size_, the number of stored elements. -/
def size (v : small_vector α) : Nat := v.elems.length

/-- is_on_stack(): capacity_ <= stack_capacity. -/
def is_on_stack (v : small_vector α) : Bool := v.capacity ≤ v.stack_capacity

/-- is_using_stack_storage() simply returns is_on_stack(). -/
def is_using_stack_storage (v : small_vector α) : Bool := v.is_on_stack

/-- Default constructor: size_ = 0, capacity_ = stack_capacity. -/
def mkEmpty (α : Type) (N : Nat) : small_vector α :=
  { stack_capacity := N, capacity := N, elems := [] }

/-- move_to_heap(new_capacity): if is_on_stack() and
    new_capacity > stack_capacity, allocate heap storage of
    new_capacity, move the elements over and set
    capacity_ = new_capacity; otherwise do nothing. -/
def move_to_heap (v : small_vector α) (new_capacity : Nat) : small_vector α :=
  if v.is_on_stack ∧ v.stack_capacity < new_capacity then
    { v with capacity := new_capacity }
  else v

/-- grow_if_needed(): if size_ >= capacity_, call
    move_to_heap(max(capacity_ * 2, capacity_ + 1)). -/
def grow_if_needed (v : small_vector α) : small_vector α :=
  if v.capacity ≤ v.size then
    v.move_to_heap (max (v.capacity * 2) (v.capacity + 1))
  else v

/-- push_back(value): grow_if_needed(), then construct the element at
    data_ptr()[size_] and increment size_. -/
def push_back (v : small_vector α) (x : α) : small_vector α :=
  let v₁ := v.grow_if_needed
  { v₁ with elems := v₁.elems ++ [x] }

/-- emplace_back(args...) constructs in place exactly like push_back. -/
def emplace_back (v : small_vector α) (x : α) : small_vector α :=
  v.push_back x

/-- reserve(new_capacity): if new_capacity > capacity_, call
    move_to_heap(new_capacity); otherwise do nothing. -/
def reserve (v : small_vector α) (new_capacity : Nat) : small_vector α :=
  if v.capacity < new_capacity then v.move_to_heap new_capacity else v

end small_vector

/-! ## Capacity rounding shared by both ring buffers

  BasicRingBuffer::round_to_power_of_2 and
  PodRingBuffer::round_to_power_of_2 are textually identical:
  round_to_power_of_2(n) = (n == 0) ? 1 : std::bit_ceil(n).
  std::bit_ceil(n) is the smallest power of two that is >= n, which
  for n >= 1 is 2 ^ ceil(log2 n) = 2 ^ Nat.clog 2 n. -/

/-- Search for the least exponent k with n <= 2 ^ k, scanning upward
    from k with the given fuel. -/
def leastPowAux (n : Nat) : Nat → Nat → Nat
  | 0, k => k
  | fuel + 1, k => if n ≤ 2 ^ k then k else leastPowAux n fuel (k + 1)

/-- Ceiling of log2: the least k with n <= 2 ^ k (0 for n = 0). -/
def ceilLog2 (n : Nat) : Nat := leastPowAux n (n + 1) 0

/-- std::bit_ceil for Nat: the smallest power of two not below n. -/
def bit_ceil (n : Nat) : Nat := 2 ^ ceilLog2 n

/-- round_to_power_of_2(n): 1 when n = 0, otherwise std::bit_ceil(n). -/
def round_to_power_of_2 (n : Nat) : Nat :=
  if n = 0 then 1 else bit_ceil n

/-! ## Overflow policy (oc::rb::OverflowPolicy) -/

inductive OverflowPolicy where
  | Block
  | Drop
  | Overwrite
deriving DecidableEq, Repr

/-! ## Generic SPSC ring: oc::rb::BasicRingBuffer<T, Policy>

  State: capacity_ (a power of two produced by round_to_power_of_2),
  the slot array buffer_ (a slot holds none while uninitialized /
  destroyed, some x while it owns a live element), and the two
  monotone counters head (producer) and tail (consumer).
  mask_ = capacity_ - 1 is derived.  get_element_ptr(i) addresses
  slot (i &&& mask_). -/

structure BasicRingBuffer (α : Type) where
  capacity : Nat
  buf : Nat → Option α
  head : Nat
  tail : Nat

namespace BasicRingBuffer

variable {α : Type}

/-- get_element_ptr(index): slot index is (index & mask_). -/
def slot (rb : BasicRingBuffer α) (i : Nat) : Nat :=
  i &&& (rb.capacity - 1)

/-- Constructor: capacity rounded by round_to_power_of_2, both
    counters zero, no slot initialized. -/
def make (α : Type) (cap : Nat) : BasicRingBuffer α :=
  { capacity := round_to_power_of_2 cap, buf := fun _ => none, head := 0, tail := 0 }

/-- size() = head - tail (acquire loads of both counters). -/
def size (rb : BasicRingBuffer α) : Nat := rb.head - rb.tail

/-- full() = (size() == capacity_). -/
def full (rb : BasicRingBuffer α) : Bool := rb.size = rb.capacity

/-- push_impl: construct the element at slot (head & mask_), then
    store head + 1 with release.  The Block-policy spin loop has
    already exited when this state change happens, so the model takes
    the post-wait state change. -/
def push_impl (rb : BasicRingBuffer α) (x : α) : BasicRingBuffer α :=
  { rb with
    buf := fun j => if j = rb.slot rb.head then some x else rb.buf j
    head := rb.head + 1 }

/-- pop_impl: move the element out of slot (tail & mask_), destroy the
    slot, store tail + 1 with release.  Returns the slot contents. -/
def pop_impl (rb : BasicRingBuffer α) : Option α × BasicRingBuffer α :=
  (rb.buf (rb.slot rb.tail),
   { rb with
     buf := fun j => if j = rb.slot rb.tail then none else rb.buf j
     tail := rb.tail + 1 })

/-- try_push per policy.  Block on a full ring spins with no other
    thread to make space, which in this sequential model is the
    undefined outcome none; Drop returns false and leaves the ring
    unchanged; Overwrite first runs pop_impl when full. -/
def try_push (P : OverflowPolicy) (rb : BasicRingBuffer α) (x : α) :
    Option (BasicRingBuffer α × Bool) :=
  match P with
  | .Block => if rb.full then none else some (rb.push_impl x, true)
  | .Drop => if rb.full then some (rb, false) else some (rb.push_impl x, true)
  | .Overwrite =>
      if rb.full then some ((rb.pop_impl.2).push_impl x, true)
      else some (rb.push_impl x, true)

/-- try_pop: none and no state change when empty, otherwise pop_impl. -/
def try_pop (rb : BasicRingBuffer α) : Option α × BasicRingBuffer α :=
  if rb.size = 0 then (none, rb) else rb.pop_impl

/-- Contents of the filled region in consumer order: the slots at
    (tail + i) & mask_ for i < size. -/
def window (rb : BasicRingBuffer α) : List (Option α) :=
  (List.range rb.size).map fun i => rb.buf (rb.slot (rb.tail + i))

end BasicRingBuffer

/-! ## Producer/consumer traces over the generic ring

  A trace interleaves single-element pushes and pops.  A trace is
  admissible when no push happens on a full ring (the claim's bound of
  at most capacity items outstanding between pops: under that bound
  all three policies perform exactly push_impl) and every pop is
  successful (the ring is non-empty).  runBasic returns none on an
  inadmissible trace, otherwise the final state and the list of values
  the pops returned, in order. -/

inductive BasicOp (α : Type) where
  | push (x : α)
  | pop

/-- Values pushed by a trace, in order. -/
def pushedOf {α : Type} : List (BasicOp α) → List α
  | [] => []
  | .push x :: ops => x :: pushedOf ops
  | .pop :: ops => pushedOf ops

/-- Run a trace, collecting the values returned by the pops. -/
def runBasic {α : Type} (rb : BasicRingBuffer α) :
    List (BasicOp α) → Option (BasicRingBuffer α × List (Option α))
  | [] => some (rb, [])
  | .push x :: ops =>
      if rb.size < rb.capacity then runBasic (rb.push_impl x) ops else none
  | .pop :: ops =>
      if rb.size = 0 then none
      else (runBasic rb.pop_impl.2 ops).map fun r => (r.1, rb.pop_impl.1 :: r.2)

/-! ## Trivially-copyable ring: oc::rb::PodRingBuffer<T, Policy>

  Same counter discipline as the generic ring; the slot array always
  holds a value of the trivially-copyable element type (value
  initialized to default by make_unique<T[]>). -/

structure PodRingBuffer (α : Type) where
  capacity : Nat
  buf : Nat → α
  head : Nat
  tail : Nat

/-- memcpy of the elements of xs into consecutive raw slots starting
    at start. -/
def writeRange {α : Type} (buf : Nat → α) (start : Nat) (xs : List α) : Nat → α :=
  fun j => if start ≤ j ∧ j < start + xs.length then xs.getD (j - start) (buf j) else buf j

/-- memcpy of len consecutive raw slots starting at start into a
    fresh output buffer. -/
def readRange {α : Type} (buf : Nat → α) (start len : Nat) : List α :=
  (List.range len).map fun i => buf (start + i)

/-- Wrap-aware deposit used by try_push_bulk: a single contiguous copy
    when start + xs.length fits below capacity, otherwise a first
    chunk up to the capacity boundary followed by a second chunk from
    slot 0. -/
def chunkedWrite {α : Type} (buf : Nat → α) (cap start : Nat) (xs : List α) : Nat → α :=
  if start + xs.length ≤ cap then writeRange buf start xs
  else
    writeRange (writeRange buf start (xs.take (cap - start))) 0 (xs.drop (cap - start))

/-- Wrap-aware extraction used by try_pop_bulk: a single contiguous
    copy when start + len fits below capacity, otherwise a first chunk
    up to the capacity boundary followed by a second chunk from
    slot 0. -/
def chunkedRead {α : Type} (buf : Nat → α) (cap start len : Nat) : List α :=
  if start + len ≤ cap then readRange buf start len
  else readRange buf start (cap - start) ++ readRange buf 0 (len - (cap - start))

namespace PodRingBuffer

variable {α : Type}

/-- Raw slot index of a counter value: (index & mask_). -/
def slot (rb : PodRingBuffer α) (i : Nat) : Nat :=
  i &&& (rb.capacity - 1)

/-- Constructor: make_unique<T[]>(capacity_) value-initializes the
    slots. -/
def make (α : Type) [Inhabited α] (cap : Nat) : PodRingBuffer α :=
  { capacity := round_to_power_of_2 cap, buf := fun _ => default, head := 0, tail := 0 }

/-- size() = head - tail. -/
def size (rb : PodRingBuffer α) : Nat := rb.head - rb.tail

/-- full() = (size() == capacity_). -/
def full (rb : PodRingBuffer α) : Bool := rb.size = rb.capacity

/-- available() = capacity_ - size(). -/
def available (rb : PodRingBuffer α) : Nat := rb.capacity - rb.size

/-- Deposit of a single element: buffer_[head & mask_] = item, then
    store head + 1 with release. -/
def deposit (rb : PodRingBuffer α) (x : α) : PodRingBuffer α :=
  { rb with
    buf := fun j => if j = rb.slot rb.head then x else rb.buf j
    head := rb.head + 1 }

/-- try_pop: none when empty, otherwise read buffer_[tail & mask_] and
    store tail + 1 with release. -/
def try_pop (rb : PodRingBuffer α) : Option α × PodRingBuffer α :=
  if rb.size = 0 then (none, rb)
  else (some (rb.buf (rb.slot rb.tail)), { rb with tail := rb.tail + 1 })

/-- try_push per policy: Drop returns false on a full ring; Overwrite
    first pops the oldest element when full; Block would spin on a
    full ring (none in this sequential model).  Then the deposit. -/
def try_push (P : OverflowPolicy) (rb : PodRingBuffer α) (x : α) :
    Option (PodRingBuffer α × Bool) :=
  match P with
  | .Block => if rb.full then none else some (rb.deposit x, true)
  | .Drop => if rb.full then some (rb, false) else some (rb.deposit x, true)
  | .Overwrite =>
      if rb.full then some ((rb.try_pop.2).deposit x, true)
      else some (rb.deposit x, true)

/-- clear(): store tail = head, destroying nothing. -/
def clear (rb : PodRingBuffer α) : PodRingBuffer α :=
  { rb with tail := rb.head }

/-- try_push_bulk(items): copy to_copy = min(items.size, available())
    elements in one or two memcpy chunks depending on wrap-around,
    then publish head + to_copy with one release store. -/
def try_push_bulk (rb : PodRingBuffer α) (xs : List α) : PodRingBuffer α × Nat :=
  let to_copy := min xs.length rb.available
  if to_copy = 0 then (rb, 0)
  else
    let head_idx := rb.slot rb.head
    let buf' := chunkedWrite rb.buf rb.capacity head_idx (xs.take to_copy)
    ({ rb with buf := buf', head := rb.head + to_copy }, to_copy)

/-- try_pop_bulk(output): copy to_copy = min(output.size, size())
    elements out in one or two memcpy chunks depending on wrap-around,
    then publish tail + to_copy with one release store.  Returns the
    elements copied out. -/
def try_pop_bulk (rb : PodRingBuffer α) (out_len : Nat) : PodRingBuffer α × List α :=
  let to_copy := min out_len rb.size
  if to_copy = 0 then (rb, [])
  else
    let tail_idx := rb.slot rb.tail
    let out := chunkedRead rb.buf rb.capacity tail_idx to_copy
    ({ rb with tail := rb.tail + to_copy }, out)

/-- Contents of the filled region in consumer order. -/
def window (rb : PodRingBuffer α) : List α :=
  (List.range rb.size).map fun i => rb.buf (rb.slot (rb.tail + i))

end PodRingBuffer

/-! ## Bulk producer/consumer traces over the POD ring

  pushBulk xs is admissible when xs fits into the available space
  (the claim's bound: bulk pushes totalling at most capacity items
  between pops, so try_push_bulk accepts all of xs); popBulk asks for
  k elements and receives min(k, size) of them. -/

inductive PodOp (α : Type) where
  | pushBulk (xs : List α)
  | popBulk (k : Nat)

/-- Concatenation of all values pushed by a bulk trace, in order. -/
def pushedBulkOf {α : Type} : List (PodOp α) → List α
  | [] => []
  | .pushBulk xs :: ops => xs ++ pushedBulkOf ops
  | .popBulk _ :: ops => pushedBulkOf ops

/-- Run a bulk trace, concatenating the values the pops copied out. -/
def runPod {α : Type} (rb : PodRingBuffer α) :
    List (PodOp α) → Option (PodRingBuffer α × List α)
  | [] => some (rb, [])
  | .pushBulk xs :: ops =>
      if xs.length ≤ rb.available then runPod (rb.try_push_bulk xs).1 ops else none
  | .popBulk k :: ops =>
      (runPod (rb.try_pop_bulk k).1 ops).map fun r =>
        (r.1, (rb.try_pop_bulk k).2 ++ r.2)

/-! ## Recoverable errors (std::out_of_range sites in pod_rb.hpp) -/

inductive RbError where
  | outOfRange
deriving DecidableEq, Repr

/-! ## Zero-copy write views (oc::rb::ZeroCopyWriteView and
  oc::rb::NonContiguousWriteView)

  A view holds the data_ pointer (modelled as the raw slot index it
  points at), capacity_, the committed_ flag, and the commit callback
  commit_fn_, which captures the producer head at acquisition time and
  on commit stores captured_head + written_count into the ring with
  release.  A default-constructed view has a null commit_fn_ and is
  born committed. -/

structure ZeroCopyWriteView where
  start_idx : Nat
  view_capacity : Nat
  captured_head : Nat
  has_commit_fn : Bool
  committed : Bool
deriving DecidableEq, Repr

/-- ZeroCopyWriteView(): data_ = nullptr, capacity_ = 0,
    committed_ = true, no commit_fn_. -/
def ZeroCopyWriteView.mkDefault : ZeroCopyWriteView :=
  { start_idx := 0, view_capacity := 0, captured_head := 0,
    has_commit_fn := false, committed := true }

/-- commit(written_count): only when not yet committed and commit_fn_
    is non-null; written_count > capacity_ raises OutOfRange before
    any state change, otherwise the captured head advance is published
    and the view becomes committed. -/
def ZeroCopyWriteView.commit {α : Type} (rb : PodRingBuffer α)
    (v : ZeroCopyWriteView) (written_count : Nat) :
    PodRingBuffer α × ZeroCopyWriteView × Option RbError :=
  if v.committed = false ∧ v.has_commit_fn then
    if v.view_capacity < written_count then (rb, v, some .outOfRange)
    else ({ rb with head := v.captured_head + written_count },
          { v with committed := true }, none)
  else (rb, v, none)

/-- Destructor: commit(0) when not explicitly committed. -/
def ZeroCopyWriteView.drop {α : Type} (rb : PodRingBuffer α)
    (v : ZeroCopyWriteView) : PodRingBuffer α :=
  if v.committed then rb else (v.commit rb 0).1

/-- Segments of a non-contiguous write view: (raw start slot, length)
    pairs carried by a small_vector2<Segment>. -/
structure NonContiguousWriteView where
  segments : List (Nat × Nat)
  captured_head : Nat
  has_commit_fn : Bool
  committed : Bool
deriving DecidableEq, Repr

/-- NonContiguousWriteView(): no segments, committed_ = true, no
    commit_fn_. -/
def NonContiguousWriteView.mkDefault : NonContiguousWriteView :=
  { segments := [], captured_head := 0, has_commit_fn := false, committed := true }

/-- total_capacity(): sum of the segment capacities. -/
def NonContiguousWriteView.total_capacity (v : NonContiguousWriteView) : Nat :=
  (v.segments.map Prod.snd).sum

/-- commit(written_count) of the non-contiguous view: identical to the
    single-segment view with total_capacity() as the bound. -/
def NonContiguousWriteView.commit {α : Type} (rb : PodRingBuffer α)
    (v : NonContiguousWriteView) (written_count : Nat) :
    PodRingBuffer α × NonContiguousWriteView × Option RbError :=
  if v.committed = false ∧ v.has_commit_fn then
    if v.total_capacity < written_count then (rb, v, some .outOfRange)
    else ({ rb with head := v.captured_head + written_count },
          { v with committed := true }, none)
  else (rb, v, none)

/-- Destructor: commit(0) when not explicitly committed. -/
def NonContiguousWriteView.drop {α : Type} (rb : PodRingBuffer α)
    (v : NonContiguousWriteView) : PodRingBuffer α :=
  if v.committed then rb else (v.commit rb 0).1

namespace PodRingBuffer

variable {α : Type}

/-- advance_read(count): count > size() raises OutOfRange and leaves
    the ring unchanged, otherwise tail + count is stored with
    release. -/
def advance_read (rb : PodRingBuffer α) (count : Nat) :
    PodRingBuffer α × Option RbError :=
  if rb.size < count then (rb, some .outOfRange)
  else ({ rb with tail := rb.tail + count }, none)

/-- get_write_view(max_elements): an empty, already-committed view
    when available() = 0; otherwise a view over the largest contiguous
    chunk min(max_elements, available, capacity - (head & mask))
    starting at slot (head & mask), with commit_fn_ capturing the
    current head. -/
def get_write_view (rb : PodRingBuffer α) (max_elements : Nat) : ZeroCopyWriteView :=
  if rb.available = 0 then ZeroCopyWriteView.mkDefault
  else
    let head_idx := rb.slot rb.head
    { start_idx := head_idx
      view_capacity := min max_elements (min rb.available (rb.capacity - head_idx))
      captured_head := rb.head
      has_commit_fn := true
      committed := false }

/-- get_non_contiguous_write_view(max_elements): an empty committed
    view when min(max_elements, available) = 0; otherwise one segment,
    or two when the reservation wraps, with commit_fn_ capturing the
    current head. -/
def get_non_contiguous_write_view (rb : PodRingBuffer α) (max_elements : Nat) :
    NonContiguousWriteView :=
  let to_reserve := min max_elements rb.available
  if to_reserve = 0 then NonContiguousWriteView.mkDefault
  else
    let head_idx := rb.slot rb.head
    let segs :=
      if head_idx + to_reserve ≤ rb.capacity then [(head_idx, to_reserve)]
      else [(head_idx, rb.capacity - head_idx), (0, to_reserve - (rb.capacity - head_idx))]
    { segments := segs, captured_head := rb.head, has_commit_fn := true, committed := false }

/-- reserve_write_space(count): count > available() raises OutOfRange
    and leaves the ring unchanged; otherwise head + count is published
    and the raw slot index (head & mask) of the reserved region is
    returned. -/
def reserve_write_space (rb : PodRingBuffer α) (count : Nat) :
    PodRingBuffer α × Option Nat × Option RbError :=
  if rb.available < count then (rb, none, some .outOfRange)
  else ({ rb with head := rb.head + count }, some (rb.slot rb.head), none)

end PodRingBuffer

/-! ## Move construction and move assignment of the rings

  The movable state of a ring is its counter pair plus the ownership
  of the backing storage (buffer_ / storage_ being non-null).  The
  element contents are irrelevant to claim C2 and are omitted. -/

structure MovableRing where
  capacity : Nat
  head : Nat
  tail : Nat
  storage_valid : Bool
deriving DecidableEq, Repr

/-- BasicRingBuffer move constructor: the destination copies
    capacity_, mask_, the storage and relaxed loads of both counters;
    the source only gets buffer_ = nullptr, its counters are not
    written. -/
def basicMoveConstruct (other : MovableRing) : MovableRing × MovableRing :=
  ({ capacity := other.capacity, head := other.head, tail := other.tail,
     storage_valid := other.storage_valid },
   { other with storage_valid := false })

/-- BasicRingBuffer move assignment: this->clear(), then copy
    capacity_, mask_, storage and both counters from the source, and
    null the source buffer_; the source counters are not written. -/
def basicMoveAssign (_dest other : MovableRing) : MovableRing × MovableRing :=
  ({ capacity := other.capacity, head := other.head, tail := other.tail,
     storage_valid := other.storage_valid },
   { other with storage_valid := false })

/-- PodRingBuffer move constructor: the destination copies capacity_,
    mask_, the unique_ptr buffer (nulling the source pointer) and
    relaxed loads of both counters; the source counters are not
    written. -/
def podMoveConstruct (other : MovableRing) : MovableRing × MovableRing :=
  ({ capacity := other.capacity, head := other.head, tail := other.tail,
     storage_valid := other.storage_valid },
   { other with storage_valid := false })

/-- PodRingBuffer move assignment: copy capacity_, mask_, the buffer
    unique_ptr (nulling the source pointer) and both counters; the
    source counters are not written. -/
def podMoveAssign (_dest other : MovableRing) : MovableRing × MovableRing :=
  ({ capacity := other.capacity, head := other.head, tail := other.tail,
     storage_valid := other.storage_valid },
   { other with storage_valid := false })

/-! ## Pipeline stage counters: oc::Pipe::forward (src/oc/pipe.hpp)

  The cached per-stage state is the four 32-bit counters together with
  the two capacities.  forward() is modelled as a pure transformer of
  that state; the data-plane transfers have no effect on the counters,
  so only their number is recorded.  The metadata fetches in the first
  branch read external values, passed in as parameters. -/

structure PipeState where
  src_capacity : Nat
  dst_capacity : Nat
  src_tail : Nat
  src_head : Nat
  dst_tail : Nat
  dst_head : Nat
deriving DecidableEq, Repr

/-- Contiguous source length of one loop step:
    min(src_tail - src_head, src_capacity - src_head % src_capacity). -/
def maxToTransfer (s : PipeState) : Nat :=
  min (s.src_tail - s.src_head) (s.src_capacity - s.src_head % s.src_capacity)

/-- Contiguous destination length of one loop step:
    min(dst_capacity - (dst_tail - dst_head),
        dst_capacity - dst_tail % dst_capacity). -/
def maxRemainingCapacity (s : PipeState) : Nat :=
  min (s.dst_capacity - (s.dst_tail - s.dst_head))
      (s.dst_capacity - s.dst_tail % s.dst_capacity)

/-- transfer_size = min(max_to_transfer, max_remaining_capacity). -/
def transferSize (s : PipeState) : Nat :=
  min (maxToTransfer s) (maxRemainingCapacity s)

/-- Issue loop of forward(): while src_tail > src_head and fewer than
    max_transfer_senders = 16 senders are outstanding, compute
    transfer_size, stop if it is 0, otherwise issue one transfer.  The
    loop body assigns only the locals current_src_tail and
    current_dst_tail; the members src_head, src_tail, dst_tail and
    dst_head are not modified, so the loop condition is evaluated on
    an unchanged state each time.  Returns the number of transfers
    issued. -/
def forwardLoop (s : PipeState) : Nat → Nat → Nat
  | 0, n => n
  | fuel + 1, n =>
      if s.src_head < s.src_tail then
        if transferSize s = 0 then n else forwardLoop s fuel (n + 1)
      else n

/-- num_transfer_senders after the issue loop with its cap of 16. -/
def numTransfers (s : PipeState) : Nat := forwardLoop s 16 0

/-- forward(): when src_tail == src_head, refresh src_tail and
    dst_head from the metadata planes (the fetched values are the two
    extra parameters) and return when still equal.  Then run the issue
    loop; if it issued nothing, return.  Otherwise assign
    src_tail = src_head and dst_tail = dst_head, await the senders,
    and when a downstream stage exists store this stage's dst_tail
    into its src_tail (the propagated value, returned as some _). -/
def forward (s₀ : PipeState) (fetched_src_tail fetched_dst_head : Nat) :
    PipeState × Option Nat :=
  let s := if s₀.src_tail = s₀.src_head then
      { s₀ with src_tail := fetched_src_tail, dst_head := fetched_dst_head }
    else s₀
  if s.src_tail = s.src_head then (s, none)
  else if numTransfers s = 0 then (s, none)
  else
    let s₁ := { s with src_tail := s.src_head, dst_tail := s.dst_head }
    (s₁, some s₁.dst_tail)

/-- What §4.5 of the spec prescribes for one issue iteration, modelled
    from the spec: advance the cached counters src_head += n and
    dst_tail += n after issuing a transfer of n = transfer_size
    elements. -/
def forwardStepSpec (s : PipeState) : PipeState :=
  { s with src_head := s.src_head + transferSize s
           dst_tail := s.dst_tail + transferSize s }

/-! # Theorems -/

/-! ## Capacity rounding -/

theorem leastPowAux_spec (n : Nat) : ∀ fuel k, n ≤ 2 ^ (k + fuel) →
    n ≤ 2 ^ leastPowAux n fuel k ∧ k ≤ leastPowAux n fuel k ∧
    ∀ m, k ≤ m → n ≤ 2 ^ m → leastPowAux n fuel k ≤ m := by
  intro fuel
  induction fuel with
  | zero =>
      intro k hk
      simpa [leastPowAux] using ⟨hk, fun m hm _ => hm⟩
  | succ fuel ih =>
      intro k hk
      by_cases h : n ≤ 2 ^ k
      · simpa [leastPowAux, h] using fun m hm _ => hm
      · have hk' : n ≤ 2 ^ (k + 1 + fuel) := by
          have : k + 1 + fuel = k + (fuel + 1) := by omega
          rw [this]; exact hk
        obtain ⟨h1, h2, h3⟩ := ih (k + 1) hk'
        refine ⟨by simpa [leastPowAux, h] using h1, ?_, ?_⟩
        · have := h2
          simp only [leastPowAux, h, if_false]
          omega
        · intro m hm hnm
          have hmk : k + 1 ≤ m := by
            rcases Nat.eq_or_lt_of_le hm with rfl | h'
            · exact absurd hnm h
            · omega
          simpa [leastPowAux, h] using h3 m hmk hnm

theorem ceilLog2_le_self_pow (n : Nat) : n ≤ 2 ^ ceilLog2 n := by
  have h := leastPowAux_spec n (n + 1) 0 (by
    have h1 : n < 2 ^ n := Nat.lt_two_pow n
    have h2 : (2 : Nat) ^ n ≤ 2 ^ (0 + (n + 1)) :=
      Nat.pow_le_pow_right (by norm_num) (by omega)
    omega)
  exact h.1

theorem ceilLog2_min (n m : Nat) (h : n ≤ 2 ^ m) : ceilLog2 n ≤ m := by
  have hs := leastPowAux_spec n (n + 1) 0 (by
    have h1 : n < 2 ^ n := Nat.lt_two_pow n
    have h2 : (2 : Nat) ^ n ≤ 2 ^ (0 + (n + 1)) :=
      Nat.pow_le_pow_right (by norm_num) (by omega)
    omega)
  exact hs.2.2 m (Nat.zero_le m) h

theorem ceilLog2_eq_clog (n : Nat) : ceilLog2 n = Nat.clog 2 n := by
  have h1 : ceilLog2 n ≤ Nat.clog 2 n :=
    ceilLog2_min n _ ((Nat.le_pow_iff_clog_le (by norm_num)).mpr le_rfl)
  have h2 : Nat.clog 2 n ≤ ceilLog2 n :=
    (Nat.le_pow_iff_clog_le (by norm_num)).mp (ceilLog2_le_self_pow n)
  omega

theorem round_to_power_of_2_exists_pow (n : Nat) :
    ∃ k, round_to_power_of_2 n = 2 ^ k := by
  by_cases h : n = 0
  · exact ⟨0, by simp [round_to_power_of_2, h]⟩
  · exact ⟨ceilLog2 n, by simp [round_to_power_of_2, h, bit_ceil]⟩

/-- Claim C9: for every requested capacity c, the constructed capacity
    round_to_power_of_2 c equals max(1, 2 ^ ceil(log2 c)); it is a
    power of two, at least c, and the least power of two with that
    property. -/
theorem c9_capacity_round_to_power_of_2 (c : Nat) :
    round_to_power_of_2 c = max 1 (2 ^ Nat.clog 2 c) ∧
    (∃ k, round_to_power_of_2 c = 2 ^ k) ∧
    c ≤ round_to_power_of_2 c ∧
    (∀ m, c ≤ 2 ^ m → round_to_power_of_2 c ≤ 2 ^ m) := by
  refine ⟨?_, round_to_power_of_2_exists_pow c, ?_, ?_⟩
  · by_cases h : c = 0
    · simp [round_to_power_of_2, h, Nat.clog]
    · have h1 : 1 ≤ 2 ^ Nat.clog 2 c := Nat.one_le_two_pow
      simp [round_to_power_of_2, h, bit_ceil, ceilLog2_eq_clog, Nat.max_eq_right h1]
  · by_cases h : c = 0
    · simp [h]
    · simpa [round_to_power_of_2, h, bit_ceil] using ceilLog2_le_self_pow c
  · intro m hm
    by_cases h : c = 0
    · simpa [round_to_power_of_2, h] using Nat.one_le_two_pow
    · have := ceilLog2_min c m hm
      simpa [round_to_power_of_2, h, bit_ceil] using
        Nat.pow_le_pow_right (by norm_num) this

/-- Witness for C9 at c = 5: the constructed capacity is at least 5
    and at most 2 ^ 3 = 8. -/
theorem c9_capacity_round_witness :
    5 ≤ round_to_power_of_2 5 ∧ round_to_power_of_2 5 ≤ 2 ^ 3 :=
  ⟨(c9_capacity_round_to_power_of_2 5).2.2.1,
   (c9_capacity_round_to_power_of_2 5).2.2.2 3 (by decide)⟩

/-! ## Small vector (C1) -/

/-- Counterexample to claim C1 as stated: pushing a third element into
    a small_vector with stack capacity N = 2 holding two elements does
    not abort; it succeeds, the size becomes 3, the capacity grows to
    max(2N, N+1) = 4 and the storage moves to the heap.  Likewise
    reserve(5) with N = 2 does not abort: it moves the storage to a
    heap block of capacity 5. -/
theorem c1_counterexample :
    ((((small_vector.mkEmpty Nat 2).push_back 1).push_back 2).push_back 3).size = 3 ∧
    ((((small_vector.mkEmpty Nat 2).push_back 1).push_back 2).push_back 3).elems
      = [1, 2, 3] ∧
    ((((small_vector.mkEmpty Nat 2).push_back 1).push_back 2).push_back 3).is_using_stack_storage = false ∧
    ((((small_vector.mkEmpty Nat 2).push_back 1).push_back 2).push_back 3).capacity = 4 ∧
    ((small_vector.mkEmpty Nat 2).reserve 5).capacity = 5 ∧
    ((small_vector.mkEmpty Nat 2).reserve 5).is_using_stack_storage = false := by
  decide

/-- Claim C1 as amended: push_back (and emplace_back, which is the
    same operation) never aborts: it appends the element, and when the
    vector is full at its stack capacity N it first grows the capacity
    to max(2N, N+1) and moves the elements to heap storage.  reserve(k)
    is a no-op for k at most the current capacity, and for k beyond N
    while on the stack it moves the storage to a heap block of
    capacity k. -/
theorem c1_small_vector_growth {α : Type} (v : small_vector α) (x : α) (j : Nat) :
    ((v.push_back x).elems = v.elems ++ [x]) ∧
    (v.size = v.stack_capacity → v.capacity = v.stack_capacity →
      (v.push_back x).capacity = max (v.stack_capacity * 2) (v.stack_capacity + 1) ∧
      (v.push_back x).is_using_stack_storage = false) ∧
    (j ≤ v.capacity → v.reserve j = v) ∧
    (v.capacity ≤ v.stack_capacity → v.stack_capacity < j →
      (v.reserve j).capacity = j ∧ (v.reserve j).is_using_stack_storage = false) := by
  refine ⟨?_, ?_, ?_, ?_⟩
  · simp only [small_vector.push_back, small_vector.grow_if_needed,
      small_vector.move_to_heap]
    split <;> [skip; rfl]
    split <;> rfl
  · intro hsz hcap
    have hsz' : v.elems.length = v.capacity := by
      simp [small_vector.size] at hsz
      omega
    have hgrow : v.push_back x =
        ⟨v.stack_capacity, max (v.capacity * 2) (v.capacity + 1), v.elems ++ [x]⟩ := by
      simp only [small_vector.push_back, small_vector.grow_if_needed,
        small_vector.move_to_heap, small_vector.size, small_vector.is_on_stack]
      split_ifs with h1 h2
      · rfl
      · exfalso
        simp only [decide_eq_true_eq] at h2
        exact h2 ⟨by omega, by omega⟩
      · exfalso; omega
    constructor
    · rw [hgrow, hcap]
    · rw [hgrow]
      simp [small_vector.is_using_stack_storage, small_vector.is_on_stack]
      omega
  · intro hj
    simp [small_vector.reserve]
    omega
  · intro h1 h2
    have hres : v.reserve j = ⟨v.stack_capacity, j, v.elems⟩ := by
      simp only [small_vector.reserve, small_vector.move_to_heap,
        small_vector.is_on_stack]
      split_ifs with hA hB
      · rfl
      · exfalso
        simp only [decide_eq_true_eq] at hB
        exact hB ⟨h1, h2⟩
      · exfalso; omega
    constructor
    · rw [hres]
    · rw [hres]
      simp [small_vector.is_using_stack_storage, small_vector.is_on_stack]
      omega

/-! ## Ring index arithmetic -/

theorem mod_ne_of_gap {cap a b : Nat} (h1 : a < b) (h2 : b - a < cap) :
    a % cap ≠ b % cap := by
  intro h
  have hmod : Nat.ModEq cap a b := h
  have hdvd : cap ∣ b - a := (Nat.modEq_iff_dvd' (Nat.le_of_lt h1)).mp hmod
  have := Nat.eq_zero_of_dvd_of_lt hdvd h2
  omega

theorem basic_slot_eq_mod {α : Type} {k : Nat} (rb : BasicRingBuffer α)
    (hk : rb.capacity = 2 ^ k) (i : Nat) : rb.slot i = i % rb.capacity := by
  simp [BasicRingBuffer.slot, hk, Nat.and_pow_two_sub_one_eq_mod]

theorem pod_slot_eq_mod {α : Type} {k : Nat} (rb : PodRingBuffer α)
    (hk : rb.capacity = 2 ^ k) (i : Nat) : rb.slot i = i % rb.capacity := by
  simp [PodRingBuffer.slot, hk, Nat.and_pow_two_sub_one_eq_mod]

/-! ## Window lemmas for the generic ring -/

theorem basic_window_length {α : Type} (rb : BasicRingBuffer α) :
    rb.window.length = rb.size := by
  simp [BasicRingBuffer.window]

theorem basic_window_push {α : Type} {k : Nat} (rb : BasicRingBuffer α) (x : α)
    (hk : rb.capacity = 2 ^ k) (hle : rb.tail ≤ rb.head)
    (hlt : rb.head - rb.tail < rb.capacity) :
    (rb.push_impl x).window = rb.window ++ [some x] := by
  have hcap : 0 < rb.capacity := by
    rw [hk]; exact Nat.pos_pow_of_pos k (by norm_num)
  apply List.ext_getElem
  · simp [BasicRingBuffer.window, BasicRingBuffer.push_impl, BasicRingBuffer.size]
    omega
  · intro i h1 h2
    have hi : i < rb.head + 1 - rb.tail := by
      simpa [BasicRingBuffer.window, BasicRingBuffer.push_impl,
        BasicRingBuffer.size] using h1
    simp only [BasicRingBuffer.window, BasicRingBuffer.push_impl,
      BasicRingBuffer.size, BasicRingBuffer.slot, hk,
      Nat.and_pow_two_sub_one_eq_mod, List.getElem_map, List.getElem_range]
    rcases Nat.lt_or_ge i (rb.head - rb.tail) with hcase | hcase
    · have hne : (rb.tail + i) % 2 ^ k ≠ rb.head % 2 ^ k := by
        apply mod_ne_of_gap (by omega)
        omega
      rw [if_neg hne]
      rw [List.getElem_append_left (by simpa [basic_window_length, BasicRingBuffer.size] using hcase)]
      simp [BasicRingBuffer.window, BasicRingBuffer.size, BasicRingBuffer.slot,
        hk, Nat.and_pow_two_sub_one_eq_mod]
    · have hieq : i = rb.head - rb.tail := by omega
      have heq : rb.tail + i = rb.head := by omega
      rw [heq, if_pos rfl]
      rw [List.getElem_append_right (by simp [basic_window_length, BasicRingBuffer.size]; omega)]
      simp [basic_window_length, BasicRingBuffer.size, hieq]

theorem basic_window_pop {α : Type} {k : Nat} (rb : BasicRingBuffer α)
    (hk : rb.capacity = 2 ^ k) (hle : rb.tail ≤ rb.head)
    (hsz : rb.head - rb.tail ≤ rb.capacity) (hpos : 0 < rb.head - rb.tail) :
    rb.pop_impl.1 :: (rb.pop_impl.2).window = rb.window := by
  apply List.ext_getElem
  · simp [BasicRingBuffer.window, BasicRingBuffer.pop_impl, BasicRingBuffer.size]
    omega
  · intro i h1 h2
    match i with
    | 0 =>
        simp [BasicRingBuffer.window, BasicRingBuffer.pop_impl,
          BasicRingBuffer.size, List.getElem_map, List.getElem_range]
    | j + 1 =>
        have hj : j < rb.head - (rb.tail + 1) := by
          simpa [BasicRingBuffer.window, BasicRingBuffer.pop_impl,
            BasicRingBuffer.size] using h1
        simp only [List.getElem_cons_succ, BasicRingBuffer.window,
          BasicRingBuffer.pop_impl, BasicRingBuffer.size, BasicRingBuffer.slot,
          hk, Nat.and_pow_two_sub_one_eq_mod, List.getElem_map, List.getElem_range]
        have hne : rb.tail + 1 + j ≠ rb.tail := by omega
        have hmodne : (rb.tail + 1 + j) % 2 ^ k ≠ rb.tail % 2 ^ k := by
          intro h
          exact mod_ne_of_gap (a := rb.tail) (b := rb.tail + 1 + j) (by omega)
            (by omega) h.symm
        rw [if_neg hmodne]
        have : rb.tail + 1 + j = rb.tail + (j + 1) := by omega
        rw [this]

/-! ## Window lemmas for the POD ring (single-element operations) -/

theorem pod_window_length {α : Type} (rb : PodRingBuffer α) :
    rb.window.length = rb.size := by
  simp [PodRingBuffer.window]

theorem pod_window_deposit {α : Type} {k : Nat} (rb : PodRingBuffer α) (x : α)
    (hk : rb.capacity = 2 ^ k) (hle : rb.tail ≤ rb.head)
    (hlt : rb.head - rb.tail < rb.capacity) :
    (rb.deposit x).window = rb.window ++ [x] := by
  have hcap : 0 < rb.capacity := by
    rw [hk]; exact Nat.pos_pow_of_pos k (by norm_num)
  apply List.ext_getElem
  · simp [PodRingBuffer.window, PodRingBuffer.deposit, PodRingBuffer.size]
    omega
  · intro i h1 h2
    have hi : i < rb.head + 1 - rb.tail := by
      simpa [PodRingBuffer.window, PodRingBuffer.deposit,
        PodRingBuffer.size] using h1
    simp only [PodRingBuffer.window, PodRingBuffer.deposit,
      PodRingBuffer.size, PodRingBuffer.slot, hk,
      Nat.and_pow_two_sub_one_eq_mod, List.getElem_map, List.getElem_range]
    rcases Nat.lt_or_ge i (rb.head - rb.tail) with hcase | hcase
    · have hne : (rb.tail + i) % 2 ^ k ≠ rb.head % 2 ^ k := by
        apply mod_ne_of_gap (by omega)
        omega
      rw [if_neg hne]
      rw [List.getElem_append_left (by simpa [pod_window_length, PodRingBuffer.size] using hcase)]
      simp [PodRingBuffer.window, PodRingBuffer.size, PodRingBuffer.slot,
        hk, Nat.and_pow_two_sub_one_eq_mod]
    · have hieq : i = rb.head - rb.tail := by omega
      have heq : rb.tail + i = rb.head := by omega
      rw [heq, if_pos rfl]
      rw [List.getElem_append_right (by simp [pod_window_length, PodRingBuffer.size]; omega)]
      simp [pod_window_length, PodRingBuffer.size, hieq]

theorem pod_window_pop {α : Type} (rb : PodRingBuffer α)
    (hpos : 0 < rb.size) :
    rb.try_pop.1 = some (rb.buf (rb.slot rb.tail)) ∧
    (rb.try_pop.2).window = rb.window.drop 1 := by
  have hne : ¬ rb.size = 0 := by omega
  have htp : rb.try_pop =
      (some (rb.buf (rb.slot rb.tail)), { rb with tail := rb.tail + 1 }) := by
    simp [PodRingBuffer.try_pop, hne]
  rw [htp]
  refine ⟨rfl, ?_⟩
  apply List.ext_getElem
  · simp [PodRingBuffer.window, PodRingBuffer.size, BasicRingBuffer.size] at hpos ⊢
    omega
  · intro i h1 h2
    simp only [PodRingBuffer.window, PodRingBuffer.size, PodRingBuffer.slot,
      List.getElem_map, List.getElem_range, List.getElem_drop]
    have : rb.tail + 1 + i = rb.tail + (1 + i) := by omega
    rw [this]

/-! ## Chunked memcpy bridge lemmas -/

theorem writeRange_hit {α : Type} (buf : Nat → α) (s : Nat) (xs : List α)
    (j : Nat) (h1 : s ≤ j) (h2 : j < s + xs.length) :
    writeRange buf s xs j = xs.getD (j - s) (buf j) := by
  simp [writeRange, h1, h2]

theorem writeRange_miss {α : Type} (buf : Nat → α) (s : Nat) (xs : List α)
    (j : Nat) (h : ¬ (s ≤ j ∧ j < s + xs.length)) :
    writeRange buf s xs j = buf j := by
  simp only [writeRange, if_neg h]

theorem getD_take_of_lt {α : Type} (l : List α) (n i : Nat) (d : α) (h : i < n) :
    (l.take n).getD i d = l.getD i d := by
  simp [List.getD_eq_getElem?_getD, List.getElem?_take_of_lt h]

theorem getD_drop_add {α : Type} (l : List α) (n i : Nat) (d : α) :
    (l.drop n).getD i d = l.getD (n + i) d := by
  simp [List.getD_eq_getElem?_getD]

theorem chunkedWrite_hit {α : Type} (buf : Nat → α) (d : α) (cap start : Nat)
    (xs : List α) (m : Nat) (hstart : start < cap) (hxs : xs.length ≤ cap)
    (hm : m < xs.length) :
    chunkedWrite buf cap start xs ((start + m) % cap) = xs.getD m d := by
  unfold chunkedWrite
  split_ifs with hb
  · have hfit : start + m < cap := by omega
    rw [Nat.mod_eq_of_lt hfit]
    rw [writeRange_hit _ _ _ _ (by omega) (by omega)]
    rw [Nat.add_sub_cancel_left]
    rw [List.getD_eq_getElem _ _ hm, List.getD_eq_getElem _ _ hm]
  · rcases Nat.lt_or_ge m (cap - start) with hm2 | hm2
    · have hfit : start + m < cap := by omega
      rw [Nat.mod_eq_of_lt hfit]
      rw [writeRange_miss _ _ _ _ (by
        intro hcontra
        have hlen : (xs.drop (cap - start)).length = xs.length - (cap - start) := by
          simp
        omega)]
      rw [writeRange_hit _ _ _ _ (by omega) (by
        have hlen : (xs.take (cap - start)).length = cap - start := by
          simp; omega
        omega)]
      rw [Nat.add_sub_cancel_left]
      rw [getD_take_of_lt _ _ _ _ hm2]
      rw [List.getD_eq_getElem _ _ hm, List.getD_eq_getElem _ _ hm]
    · have hge : cap ≤ start + m := by omega
      have hmod : (start + m) % cap = start + m - cap := by
        rw [Nat.mod_eq_sub_mod hge]
        exact Nat.mod_eq_of_lt (by omega)
      rw [hmod]
      rw [writeRange_hit _ _ _ _ (by omega) (by
        have hlen : (xs.drop (cap - start)).length = xs.length - (cap - start) := by
          simp
        omega)]
      rw [Nat.sub_zero, getD_drop_add]
      have hidx : cap - start + (start + m - cap) = m := by omega
      rw [hidx]
      rw [List.getD_eq_getElem _ _ hm, List.getD_eq_getElem _ _ hm]

theorem chunkedWrite_miss {α : Type} (buf : Nat → α) (cap start : Nat)
    (xs : List α) (p : Nat) (hstart : start < cap) (_hxs : xs.length ≤ cap)
    (hp : p < cap)
    (hmiss : ∀ m, m < xs.length → p ≠ (start + m) % cap) :
    chunkedWrite buf cap start xs p = buf p := by
  unfold chunkedWrite
  split_ifs with hb
  · apply writeRange_miss
    intro hcontra
    apply hmiss (p - start) (by omega)
    rw [Nat.mod_eq_of_lt (by omega)]
    omega
  · rw [writeRange_miss _ _ _ _ (by
      intro hcontra
      have hlen : (xs.drop (cap - start)).length = xs.length - (cap - start) := by
        simp
      apply hmiss (p + (cap - start)) (by omega)
      have : start + (p + (cap - start)) = p + cap := by omega
      rw [this]
      have : (p + cap) % cap = p % cap := by
        rw [Nat.add_mod_right]
      rw [this, Nat.mod_eq_of_lt hp])]
    apply writeRange_miss
    intro hcontra
    have hlen : (xs.take (cap - start)).length = cap - start := by
      simp; omega
    apply hmiss (p - start) (by omega)
    rw [Nat.mod_eq_of_lt (by omega)]
    omega

theorem chunkedRead_getD {α : Type} (buf : Nat → α) (d : α) (cap start len : Nat)
    (m : Nat) (hstart : start < cap) (hlen : len ≤ cap) (hm : m < len) :
    (chunkedRead buf cap start len).getD m d = buf ((start + m) % cap) := by
  unfold chunkedRead
  split_ifs with hb
  · rw [List.getD_eq_getElem _ _ (by simp [readRange]; omega)]
    simp only [readRange, List.getElem_map, List.getElem_range]
    rw [Nat.mod_eq_of_lt (by omega)]
  · rcases Nat.lt_or_ge m (cap - start) with hm2 | hm2
    · rw [List.getD_eq_getElem _ _ (by simp [readRange]; omega)]
      rw [List.getElem_append_left (by simp [readRange]; omega)]
      simp only [readRange, List.getElem_map, List.getElem_range]
      rw [Nat.mod_eq_of_lt (by omega)]
    · rw [List.getD_eq_getElem _ _ (by simp [readRange]; omega)]
      rw [List.getElem_append_right (by simp [readRange]; omega)]
      simp only [readRange, List.getElem_map, List.getElem_range,
        List.length_map, List.length_range]
      have hmod : (start + m) % cap = start + m - cap := by
        rw [Nat.mod_eq_sub_mod (by omega)]
        exact Nat.mod_eq_of_lt (by omega)
      rw [hmod]
      congr 1
      omega

theorem chunkedRead_length {α : Type} (buf : Nat → α) (cap start len : Nat)
    (hstart : start < cap) :
    (chunkedRead buf cap start len).length = len := by
  unfold chunkedRead
  split_ifs with hb
  · simp [readRange]
  · simp [readRange]
    omega

/-! ## Bulk operation window lemmas for the POD ring -/

theorem pod_push_bulk_spec {α : Type} {k : Nat} (rb : PodRingBuffer α)
    (xs : List α) (hk : rb.capacity = 2 ^ k) (hle : rb.tail ≤ rb.head)
    (hsz : rb.head - rb.tail ≤ rb.capacity) (hfit : xs.length ≤ rb.available) :
    (rb.try_push_bulk xs).2 = xs.length ∧
    (rb.try_push_bulk xs).1.capacity = rb.capacity ∧
    (rb.try_push_bulk xs).1.tail = rb.tail ∧
    (rb.try_push_bulk xs).1.head = rb.head + xs.length ∧
    (rb.try_push_bulk xs).1.window = rb.window ++ xs := by
  have hcap : 0 < rb.capacity := by
    rw [hk]; exact Nat.pos_pow_of_pos k (by norm_num)
  have havail : xs.length ≤ rb.capacity - (rb.head - rb.tail) := by
    simpa [PodRingBuffer.available, PodRingBuffer.size] using hfit
  have hmin : min xs.length rb.available = xs.length := Nat.min_eq_left hfit
  by_cases hL : xs.length = 0
  · have hnil : xs = [] := List.length_eq_zero.mp hL
    subst hnil
    simp [PodRingBuffer.try_push_bulk]
  · have hres : rb.try_push_bulk xs =
        ({ rb with buf := chunkedWrite rb.buf rb.capacity (rb.slot rb.head) xs,
                   head := rb.head + xs.length }, xs.length) := by
      simp only [PodRingBuffer.try_push_bulk, hmin, List.take_length]
      rw [if_neg hL]
    rw [hres]
    refine ⟨rfl, rfl, rfl, rfl, ?_⟩
    apply List.ext_getElem
    · simp [PodRingBuffer.window, PodRingBuffer.size]
      omega
    · intro i h1 h2
      have hi : i < (rb.head - rb.tail) + xs.length := by
        simp [PodRingBuffer.window, PodRingBuffer.size] at h1
        omega
      simp only [PodRingBuffer.window, PodRingBuffer.size, PodRingBuffer.slot,
        hk, Nat.and_pow_two_sub_one_eq_mod, List.getElem_map, List.getElem_range]
      have hstart : rb.head % 2 ^ k < 2 ^ k := Nat.mod_lt _ (by positivity)
      have hxs2 : xs.length ≤ 2 ^ k := by omega
      rcases Nat.lt_or_ge i (rb.head - rb.tail) with hcase | hcase
      · rw [chunkedWrite_miss _ _ _ _ _ hstart hxs2
          (Nat.mod_lt _ (by positivity)) ?hmiss]
        case hmiss =>
          intro m hm
          rw [Nat.mod_add_mod]
          apply mod_ne_of_gap (by omega)
          omega
        rw [List.getElem_append_left (by
          simp [pod_window_length, PodRingBuffer.size]; omega)]
        simp [PodRingBuffer.window, PodRingBuffer.size, PodRingBuffer.slot,
          hk, Nat.and_pow_two_sub_one_eq_mod]
      · have hm : i - (rb.head - rb.tail) < xs.length := by omega
        have heq : rb.tail + i = rb.head + (i - (rb.head - rb.tail)) := by omega
        rw [heq, ← Nat.mod_add_mod]
        rw [chunkedWrite_hit rb.buf (rb.buf 0) _ _ _ _ hstart hxs2 hm]
        rw [List.getElem_append_right (by
          simp [pod_window_length, PodRingBuffer.size]; omega)]
        rw [List.getD_eq_getElem _ _ hm]
        simp [pod_window_length, PodRingBuffer.size]

theorem pod_pop_bulk_spec {α : Type} {k : Nat} (rb : PodRingBuffer α)
    (n : Nat) (hk : rb.capacity = 2 ^ k) (_hle : rb.tail ≤ rb.head)
    (hsz : rb.head - rb.tail ≤ rb.capacity) :
    (rb.try_pop_bulk n).2 = rb.window.take (min n rb.size) ∧
    (rb.try_pop_bulk n).1.capacity = rb.capacity ∧
    (rb.try_pop_bulk n).1.head = rb.head ∧
    (rb.try_pop_bulk n).1.tail = rb.tail + min n rb.size ∧
    (rb.try_pop_bulk n).1.window = rb.window.drop (min n rb.size) := by
  have hcap : 0 < rb.capacity := by
    rw [hk]; exact Nat.pos_pow_of_pos k (by norm_num)
  by_cases h0 : min n rb.size = 0
  · rw [h0]
    simp only [PodRingBuffer.try_pop_bulk, h0, if_pos rfl]
    simp
  · have hres : rb.try_pop_bulk n =
        ({ rb with tail := rb.tail + min n rb.size },
         chunkedRead rb.buf rb.capacity (rb.slot rb.tail) (min n rb.size)) := by
      simp only [PodRingBuffer.try_pop_bulk]
      rw [if_neg h0]
    have htC : min n rb.size ≤ rb.head - rb.tail := by
      simp only [PodRingBuffer.size]
      omega
    have hstart : rb.tail % 2 ^ k < 2 ^ k := Nat.mod_lt _ (by positivity)
    have hslot : rb.slot rb.tail = rb.tail % rb.capacity := pod_slot_eq_mod rb hk _
    rw [hres]
    refine ⟨?_, rfl, rfl, rfl, ?_⟩
    · apply List.ext_getElem
      · rw [chunkedRead_length _ _ _ _ (by rw [hslot, hk]; exact hstart)]
        simp [pod_window_length, PodRingBuffer.size]
      · intro m h1 h2
        have hm : m < min n rb.size := by
          rwa [chunkedRead_length _ _ _ _ (by rw [hslot, hk]; exact hstart)] at h1
        rw [← List.getD_eq_getElem _ (rb.buf 0) h1]
        rw [hslot, hk]
        rw [chunkedRead_getD _ _ _ _ _ _ hstart (by
          simp only [PodRingBuffer.size] at hm ⊢
          omega) hm]
        rw [Nat.mod_add_mod]
        rw [List.getElem_take]
        simp [PodRingBuffer.window, PodRingBuffer.size, PodRingBuffer.slot,
          hk, Nat.and_pow_two_sub_one_eq_mod]
    · apply List.ext_getElem
      · simp [PodRingBuffer.window, PodRingBuffer.size]
        omega
      · intro i h1 h2
        simp only [PodRingBuffer.window, PodRingBuffer.size, PodRingBuffer.slot,
          hk, Nat.and_pow_two_sub_one_eq_mod, List.getElem_map,
          List.getElem_range, List.getElem_drop]
        have harr : rb.tail + min n (rb.head - rb.tail) + i =
            rb.tail + (min n (rb.head - rb.tail) + i) := by
          omega
        rw [harr]

/-! ## FIFO refinement: traces against the functional queue -/

theorem runBasic_trace {α : Type} {k : Nat} :
    ∀ (ops : List (BasicOp α)) (rb : BasicRingBuffer α) (l : List α)
      (rb' : BasicRingBuffer α) (popped : List (Option α)),
    rb.capacity = 2 ^ k → rb.tail ≤ rb.head → rb.head - rb.tail ≤ rb.capacity →
    rb.window = l.map some →
    runBasic rb ops = some (rb', popped) →
    popped ++ rb'.window = (l ++ pushedOf ops).map some := by
  intro ops
  induction ops with
  | nil =>
      intro rb l rb' popped hk hle hsz hw hrun
      simp only [runBasic, Option.some_inj] at hrun
      obtain ⟨rfl, rfl⟩ := Prod.mk.injEq .. ▸ hrun
      simp_all [pushedOf]
  | cons op ops ih =>
      intro rb l rb' popped hk hle hsz hw hrun
      cases op with
      | push x =>
          simp only [runBasic] at hrun
          by_cases hfull : rb.size < rb.capacity
          · rw [if_pos hfull] at hrun
            have hfull' : rb.head - rb.tail < rb.capacity := by
              simpa [BasicRingBuffer.size] using hfull
            have hw' : (rb.push_impl x).window = (l ++ [x]).map some := by
              rw [basic_window_push rb x hk hle hfull']
              simp [hw]
            have hres := ih (rb.push_impl x) (l ++ [x]) rb' popped
              (by simpa [BasicRingBuffer.push_impl] using hk)
              (by simp [BasicRingBuffer.push_impl]; omega)
              (by simp [BasicRingBuffer.push_impl]; omega)
              hw' hrun
            simpa [pushedOf, List.append_assoc] using hres
          · rw [if_neg hfull] at hrun
            cases hrun
      | pop =>
          simp only [runBasic] at hrun
          by_cases hemp : rb.size = 0
          · rw [if_pos hemp] at hrun
            cases hrun
          · rw [if_neg hemp] at hrun
            cases hr : runBasic rb.pop_impl.2 ops with
            | none => rw [hr] at hrun; cases hrun
            | some r =>
                rw [hr] at hrun
                simp only [Option.map_some', Option.some_inj] at hrun
                obtain ⟨rfl, rfl⟩ := Prod.mk.injEq .. ▸ hrun
                have hpos : 0 < rb.head - rb.tail := by
                  simp [BasicRingBuffer.size] at hemp
                  omega
                have hcons := basic_window_pop rb hk hle hsz hpos
                cases l with
                | nil =>
                    exfalso
                    have := congrArg List.length hw
                    simp [basic_window_length, BasicRingBuffer.size] at this
                    omega
                | cons a l₁ =>
                    rw [hw] at hcons
                    simp only [List.map_cons] at hcons
                    have hval : rb.pop_impl.1 = some a := by
                      have := congrArg (fun t => t.headI) hcons
                      simpa using this
                    have hwin : (rb.pop_impl.2).window = l₁.map some := by
                      have := congrArg List.tail hcons
                      simpa using this
                    have hres := ih rb.pop_impl.2 l₁ r.1 r.2
                      (by simpa [BasicRingBuffer.pop_impl] using hk)
                      (by simp [BasicRingBuffer.pop_impl]; omega)
                      (by simp [BasicRingBuffer.pop_impl]; omega)
                      hwin hr
                    simp only [pushedOf, List.cons_append, List.map_cons, hval]
                    rw [hres]

theorem runPod_trace {α : Type} {k : Nat} :
    ∀ (ops : List (PodOp α)) (rb : PodRingBuffer α) (l : List α)
      (rb' : PodRingBuffer α) (popped : List α),
    rb.capacity = 2 ^ k → rb.tail ≤ rb.head → rb.head - rb.tail ≤ rb.capacity →
    rb.window = l →
    runPod rb ops = some (rb', popped) →
    popped ++ rb'.window = l ++ pushedBulkOf ops := by
  intro ops
  induction ops with
  | nil =>
      intro rb l rb' popped hk hle hsz hw hrun
      simp only [runPod, Option.some_inj] at hrun
      obtain ⟨rfl, rfl⟩ := Prod.mk.injEq .. ▸ hrun
      simp_all [pushedBulkOf]
  | cons op ops ih =>
      intro rb l rb' popped hk hle hsz hw hrun
      cases op with
      | pushBulk xs =>
          simp only [runPod] at hrun
          by_cases hfit : xs.length ≤ rb.available
          · rw [if_pos hfit] at hrun
            obtain ⟨hcount, hcap2, htail2, hhead2, hwin2⟩ :=
              pod_push_bulk_spec rb xs hk hle hsz hfit
            have havail : xs.length ≤ rb.capacity - (rb.head - rb.tail) := by
              simpa [PodRingBuffer.available, PodRingBuffer.size] using hfit
            have hres := ih (rb.try_push_bulk xs).1 (l ++ xs) rb' popped
              (by rw [hcap2, hk])
              (by rw [htail2, hhead2]; omega)
              (by rw [htail2, hhead2, hcap2]; omega)
              (by rw [hwin2, hw]) hrun
            simpa [pushedBulkOf, List.append_assoc] using hres
          · rw [if_neg hfit] at hrun
            cases hrun
      | popBulk m =>
          simp only [runPod] at hrun
          cases hr : runPod (rb.try_pop_bulk m).1 ops with
          | none => rw [hr] at hrun; cases hrun
          | some r =>
              rw [hr] at hrun
              simp only [Option.map_some', Option.some_inj] at hrun
              obtain ⟨rfl, rfl⟩ := Prod.mk.injEq .. ▸ hrun
              obtain ⟨hout, hcap2, hhead2, htail2, hwin2⟩ :=
                pod_pop_bulk_spec rb m hk hle hsz
              have htC : min m rb.size ≤ rb.head - rb.tail := by
                simp only [PodRingBuffer.size]
                omega
              have hres := ih (rb.try_pop_bulk m).1 (l.drop (min m rb.size)) r.1 r.2
                (by rw [hcap2, hk])
                (by rw [htail2, hhead2]; omega)
                (by rw [htail2, hhead2, hcap2]; omega)
                (by rw [hwin2, hw]) hr
              simp only [pushedBulkOf, hout, hw]
              rw [List.append_assoc, hres]
              rw [← List.append_assoc, List.take_append_drop]

/-- Claim C4: FIFO round trip for both rings.  Over any admissible
    trace from a freshly constructed ring (pushes fit within the free
    space, pops succeed), if the number of popped items equals the
    number of pushed items then the popped sequence equals the pushed
    sequence, in order.  This covers single-element pushes and pops on
    the generic ring and the wrap-aware bulk operations of the
    trivially-copyable ring. -/
theorem c4_fifo_round_trip {α : Type} [Inhabited α] (cap : Nat) :
    (∀ (ops : List (BasicOp α)) (rb' : BasicRingBuffer α)
        (popped : List (Option α)),
        runBasic (BasicRingBuffer.make α cap) ops = some (rb', popped) →
        popped.length = (pushedOf ops).length →
        popped = (pushedOf ops).map some) ∧
    (∀ (ops : List (PodOp α)) (rb' : PodRingBuffer α) (popped : List α),
        runPod (PodRingBuffer.make α cap) ops = some (rb', popped) →
        popped.length = (pushedBulkOf ops).length →
        popped = pushedBulkOf ops) := by
  obtain ⟨k, hk⟩ := round_to_power_of_2_exists_pow cap
  constructor
  · intro ops rb' popped hrun hlen
    have htrace := runBasic_trace ops (BasicRingBuffer.make α cap) [] rb' popped
      (by simpa [BasicRingBuffer.make] using hk)
      (by simp [BasicRingBuffer.make])
      (by simp [BasicRingBuffer.make])
      (by simp [BasicRingBuffer.window, BasicRingBuffer.make, BasicRingBuffer.size])
      hrun
    simp only [List.nil_append] at htrace
    have hlens := congrArg List.length htrace
    simp only [List.length_append, List.length_map] at hlens
    have hnil : rb'.window = [] := List.eq_nil_of_length_eq_zero (by omega)
    rw [hnil, List.append_nil] at htrace
    exact htrace
  · intro ops rb' popped hrun hlen
    have htrace := runPod_trace ops (PodRingBuffer.make α cap) [] rb' popped
      (by simpa [PodRingBuffer.make] using hk)
      (by simp [PodRingBuffer.make])
      (by simp [PodRingBuffer.make])
      (by simp [PodRingBuffer.window, PodRingBuffer.make, PodRingBuffer.size])
      hrun
    simp only [List.nil_append] at htrace
    have hlens := congrArg List.length htrace
    simp only [List.length_append] at hlens
    have hnil : rb'.window = [] := List.eq_nil_of_length_eq_zero (by omega)
    rw [hnil, List.append_nil] at htrace
    exact htrace

/-- Witness for C4 on capacity 4: the generic trace pushes 1, 2, 3
    interleaved with three pops, and the bulk trace pushes two bulks
    of three that wrap the storage boundary, popped as 2 + 4. -/
theorem c4_fifo_round_trip_witness :
    (runBasic (BasicRingBuffer.make Nat 4)
        [BasicOp.push 1, BasicOp.push 2, BasicOp.pop, BasicOp.push 3,
         BasicOp.pop, BasicOp.pop]).map Prod.snd =
      some [some 1, some 2, some 3] ∧
    (runPod (PodRingBuffer.make Nat 4)
        [PodOp.pushBulk [10, 20, 30], PodOp.popBulk 2,
         PodOp.pushBulk [40, 50, 60], PodOp.popBulk 4]).map Prod.snd =
      some [10, 20, 30, 40, 50, 60] := by
  constructor
  · have hlen : (runBasic (BasicRingBuffer.make Nat 4)
        [BasicOp.push 1, BasicOp.push 2, BasicOp.pop, BasicOp.push 3,
         BasicOp.pop, BasicOp.pop]).map (fun r => r.2.length) = some 3 := rfl
    cases hrun : runBasic (BasicRingBuffer.make Nat 4)
        [BasicOp.push 1, BasicOp.push 2, BasicOp.pop, BasicOp.push 3,
         BasicOp.pop, BasicOp.pop] with
    | none => rw [hrun] at hlen; cases hlen
    | some r =>
        rw [hrun] at hlen
        simp only [Option.map_some', Option.some_inj] at hlen
        have hp := (c4_fifo_round_trip 4).1 _ r.1 r.2 (by rw [hrun]) (by
          rw [hlen]; rfl)
        simp only [Option.map_some', Option.some_inj]
        rw [hp]
        rfl
  · have hlen : (runPod (PodRingBuffer.make Nat 4)
        [PodOp.pushBulk [10, 20, 30], PodOp.popBulk 2,
         PodOp.pushBulk [40, 50, 60], PodOp.popBulk 4]).map
          (fun r => r.2.length) = some 6 := rfl
    cases hrun : runPod (PodRingBuffer.make Nat 4)
        [PodOp.pushBulk [10, 20, 30], PodOp.popBulk 2,
         PodOp.pushBulk [40, 50, 60], PodOp.popBulk 4] with
    | none => rw [hrun] at hlen; cases hlen
    | some r =>
        rw [hrun] at hlen
        simp only [Option.map_some', Option.some_inj] at hlen
        have hp := (c4_fifo_round_trip 4).2 _ r.1 r.2 (by rw [hrun]) (by
          rw [hlen]; rfl)
        simp only [Option.map_some', Option.some_inj]
        rw [hp]
        rfl

/-- Claim C7: under the Overwrite policy, pushing into a full ring
    (generic or trivially-copyable) evicts exactly the oldest element
    at tail, deposits exactly the one new element, returns true, and
    leaves the size equal to the capacity. -/
theorem c7_overwrite_full {α : Type} (k1 k2 : Nat) (rb : BasicRingBuffer α)
    (rp : PodRingBuffer α) (x y : α)
    (hk1 : rb.capacity = 2 ^ k1) (hle1 : rb.tail ≤ rb.head)
    (hf1 : rb.size = rb.capacity)
    (hk2 : rp.capacity = 2 ^ k2) (hle2 : rp.tail ≤ rp.head)
    (hf2 : rp.size = rp.capacity) :
    (BasicRingBuffer.try_push .Overwrite rb x =
        some ((rb.pop_impl.2).push_impl x, true) ∧
      ((rb.pop_impl.2).push_impl x).window = rb.window.drop 1 ++ [some x] ∧
      ((rb.pop_impl.2).push_impl x).size = rb.capacity) ∧
    (PodRingBuffer.try_push .Overwrite rp y =
        some ((rp.try_pop.2).deposit y, true) ∧
      ((rp.try_pop.2).deposit y).window = rp.window.drop 1 ++ [y] ∧
      ((rp.try_pop.2).deposit y).size = rp.capacity) := by
  have hcap1 : 0 < rb.capacity := by
    rw [hk1]; exact Nat.pos_pow_of_pos k1 (by norm_num)
  have hcap2 : 0 < rp.capacity := by
    rw [hk2]; exact Nat.pos_pow_of_pos k2 (by norm_num)
  have hpos1 : 0 < rb.size := by rw [hf1]; exact hcap1
  have hpos2 : 0 < rp.size := by rw [hf2]; exact hcap2
  constructor
  · have hfull : rb.full = true := by simp [BasicRingBuffer.full, hf1]
    refine ⟨by simp [BasicRingBuffer.try_push, hfull], ?_, ?_⟩
    · have hcons := basic_window_pop rb hk1 hle1 (le_of_eq hf1)
        (by simpa [BasicRingBuffer.size] using hpos1)
      have hwin : (rb.pop_impl.2).window = rb.window.drop 1 := by
        have := congrArg List.tail hcons
        simpa [List.drop_one] using this
      rw [basic_window_push rb.pop_impl.2 x
        (by simpa [BasicRingBuffer.pop_impl] using hk1)
        (by simp [BasicRingBuffer.pop_impl]
            simp [BasicRingBuffer.size] at hpos1
            omega)
        (by simp [BasicRingBuffer.pop_impl]
            simp [BasicRingBuffer.size, hf1] at hpos1 hf1 ⊢
            omega)]
      rw [hwin]
    · simp only [BasicRingBuffer.size, BasicRingBuffer.push_impl,
        BasicRingBuffer.pop_impl] at hf1 ⊢
      simp only [BasicRingBuffer.size] at hpos1
      omega
  · have hfull : rp.full = true := by simp [PodRingBuffer.full, hf2]
    refine ⟨by simp [PodRingBuffer.try_push, hfull], ?_, ?_⟩
    · obtain ⟨hval, hwin⟩ := pod_window_pop rp hpos2
      have htail2 : (rp.try_pop.2).tail = rp.tail + 1 := by
        simp [PodRingBuffer.try_pop, Nat.pos_iff_ne_zero.mp hpos2]
      have hhead2 : (rp.try_pop.2).head = rp.head := by
        simp [PodRingBuffer.try_pop, Nat.pos_iff_ne_zero.mp hpos2]
      have hcap2' : (rp.try_pop.2).capacity = rp.capacity := by
        simp [PodRingBuffer.try_pop, Nat.pos_iff_ne_zero.mp hpos2]
      rw [pod_window_deposit rp.try_pop.2 y (by rw [hcap2', hk2])
        (by rw [htail2, hhead2]
            simp [PodRingBuffer.size] at hpos2
            omega)
        (by rw [htail2, hhead2, hcap2']
            simp [PodRingBuffer.size] at hpos2 hf2
            omega)]
      rw [hwin]
    · have htail2 : (rp.try_pop.2).tail = rp.tail + 1 := by
        simp [PodRingBuffer.try_pop, Nat.pos_iff_ne_zero.mp hpos2]
      have hhead2 : (rp.try_pop.2).head = rp.head := by
        simp [PodRingBuffer.try_pop, Nat.pos_iff_ne_zero.mp hpos2]
      simp only [PodRingBuffer.size, PodRingBuffer.deposit, htail2, hhead2]
      simp only [PodRingBuffer.size] at hpos2 hf2
      omega

/-- Witness for C7 on concrete full rings of capacity 2 holding 7, 8:
    the Overwrite push of 9 (10 in the POD ring) leaves the windows
    as the two youngest elements. -/
theorem c7_overwrite_full_witness :
    (BasicRingBuffer.try_push .Overwrite
        (((BasicRingBuffer.make Nat 2).push_impl 7).push_impl 8) 9 =
      some ((((((BasicRingBuffer.make Nat 2).push_impl 7).push_impl 8).pop_impl.2).push_impl 9), true) ∧
      ((((((BasicRingBuffer.make Nat 2).push_impl 7).push_impl 8).pop_impl.2).push_impl 9)).window =
        ((((BasicRingBuffer.make Nat 2).push_impl 7).push_impl 8)).window.drop 1 ++ [some 9] ∧
      ((((((BasicRingBuffer.make Nat 2).push_impl 7).push_impl 8).pop_impl.2).push_impl 9)).size =
        (((BasicRingBuffer.make Nat 2).push_impl 7).push_impl 8).capacity) ∧
    (PodRingBuffer.try_push .Overwrite
        (((PodRingBuffer.make Nat 2).deposit 7).deposit 8) 10 =
      some (((((PodRingBuffer.make Nat 2).deposit 7).deposit 8).try_pop.2).deposit 10, true) ∧
      (((((PodRingBuffer.make Nat 2).deposit 7).deposit 8).try_pop.2).deposit 10).window =
        ((((PodRingBuffer.make Nat 2).deposit 7).deposit 8)).window.drop 1 ++ [10] ∧
      (((((PodRingBuffer.make Nat 2).deposit 7).deposit 8).try_pop.2).deposit 10).size =
        (((PodRingBuffer.make Nat 2).deposit 7).deposit 8).capacity) :=
  c7_overwrite_full 1 1
    (((BasicRingBuffer.make Nat 2).push_impl 7).push_impl 8)
    (((PodRingBuffer.make Nat 2).deposit 7).deposit 8) 9 10
    (by rfl) (by decide) (by decide) (by rfl) (by decide) (by decide)

/-- Claim C8: under the Drop policy, try_push on a full ring returns
    false and leaves the ring unchanged (the very same state: head,
    tail and contents); on a non-full ring it appends the element and
    returns true.  Both the generic and the trivially-copyable ring. -/
theorem c8_drop_policy {α : Type} (k1 k2 : Nat) (rb : BasicRingBuffer α)
    (rp : PodRingBuffer α) (x y : α) :
    (rb.size = rb.capacity →
      BasicRingBuffer.try_push .Drop rb x = some (rb, false)) ∧
    (rb.capacity = 2 ^ k1 → rb.tail ≤ rb.head → rb.size < rb.capacity →
      BasicRingBuffer.try_push .Drop rb x = some (rb.push_impl x, true) ∧
      (rb.push_impl x).window = rb.window ++ [some x]) ∧
    (rp.size = rp.capacity →
      PodRingBuffer.try_push .Drop rp y = some (rp, false)) ∧
    (rp.capacity = 2 ^ k2 → rp.tail ≤ rp.head → rp.size < rp.capacity →
      PodRingBuffer.try_push .Drop rp y = some (rp.deposit y, true) ∧
      (rp.deposit y).window = rp.window ++ [y]) := by
  refine ⟨?_, ?_, ?_, ?_⟩
  · intro hf
    have hfull : rb.full = true := by simp [BasicRingBuffer.full, hf]
    simp [BasicRingBuffer.try_push, hfull]
  · intro hk hle hlt
    have hfull : ¬ rb.full = true := by
      simp [BasicRingBuffer.full]
      omega
    refine ⟨by simp [BasicRingBuffer.try_push, hfull], ?_⟩
    exact basic_window_push rb x hk hle (by simpa [BasicRingBuffer.size] using hlt)
  · intro hf
    have hfull : rp.full = true := by simp [PodRingBuffer.full, hf]
    simp [PodRingBuffer.try_push, hfull]
  · intro hk hle hlt
    have hfull : ¬ rp.full = true := by
      simp [PodRingBuffer.full]
      omega
    refine ⟨by simp [PodRingBuffer.try_push, hfull], ?_⟩
    exact pod_window_deposit rp y hk hle (by simpa [PodRingBuffer.size] using hlt)

/-- Witness for C8 on capacity-2 rings: a full ring rejects the push
    and is returned unchanged; a ring holding one element accepts it
    and appends. -/
theorem c8_drop_policy_witness :
    (BasicRingBuffer.try_push .Drop
        (((BasicRingBuffer.make Nat 2).push_impl 7).push_impl 8) 9 =
      some ((((BasicRingBuffer.make Nat 2).push_impl 7).push_impl 8), false)) ∧
    (BasicRingBuffer.try_push .Drop ((BasicRingBuffer.make Nat 2).push_impl 7) 9 =
      some (((BasicRingBuffer.make Nat 2).push_impl 7).push_impl 9, true) ∧
      (((BasicRingBuffer.make Nat 2).push_impl 7).push_impl 9).window =
        ((BasicRingBuffer.make Nat 2).push_impl 7).window ++ [some 9]) ∧
    (PodRingBuffer.try_push .Drop
        (((PodRingBuffer.make Nat 2).deposit 7).deposit 8) 10 =
      some ((((PodRingBuffer.make Nat 2).deposit 7).deposit 8), false)) ∧
    (PodRingBuffer.try_push .Drop ((PodRingBuffer.make Nat 2).deposit 7) 10 =
      some (((PodRingBuffer.make Nat 2).deposit 7).deposit 10, true) ∧
      (((PodRingBuffer.make Nat 2).deposit 7).deposit 10).window =
        ((PodRingBuffer.make Nat 2).deposit 7).window ++ [10]) := by
  have h1 := c8_drop_policy 1 1
    (((BasicRingBuffer.make Nat 2).push_impl 7).push_impl 8)
    (((PodRingBuffer.make Nat 2).deposit 7).deposit 8) 9 10
  have h2 := c8_drop_policy 1 1
    ((BasicRingBuffer.make Nat 2).push_impl 7)
    ((PodRingBuffer.make Nat 2).deposit 7) 9 10
  exact ⟨h1.1 (by decide), h2.2.1 (by rfl) (by decide) (by decide),
    h1.2.2.1 (by decide), h2.2.2.2 (by rfl) (by decide) (by decide)⟩

/-- Claim C5: acquiring a write view (single-segment or
    non-contiguous) and dropping it without an explicit commit
    publishes a commit of size 0 against the captured head, so the
    ring is returned exactly as it was: head, tail, size and contents
    are unchanged and no slot becomes visible to the consumer. -/
theorem c5_view_drop_commits_zero {α : Type} (rb : PodRingBuffer α)
    (max_elements : Nat) :
    ZeroCopyWriteView.drop rb (rb.get_write_view max_elements) = rb ∧
    NonContiguousWriteView.drop rb
      (rb.get_non_contiguous_write_view max_elements) = rb := by
  constructor
  · by_cases h : rb.available = 0
    · simp [PodRingBuffer.get_write_view, h, ZeroCopyWriteView.mkDefault,
        ZeroCopyWriteView.drop]
    · simp [PodRingBuffer.get_write_view, h, ZeroCopyWriteView.drop,
        ZeroCopyWriteView.commit]
  · by_cases h : min max_elements rb.available = 0
    · simp [PodRingBuffer.get_non_contiguous_write_view, h,
        NonContiguousWriteView.mkDefault, NonContiguousWriteView.drop]
    · simp [PodRingBuffer.get_non_contiguous_write_view, h,
        NonContiguousWriteView.drop, NonContiguousWriteView.commit]

/-- Claim C6: advance_read(n) with n > size, commit(n) with n > view
    capacity on a not-yet-committed view, and reserve_write_space(n)
    with n > available each surface the recoverable OutOfRange error,
    and in each case the ring and the view are returned in their prior
    state (head, tail and the committed flag unchanged). -/
theorem c6_out_of_range_errors {α : Type} (rb : PodRingBuffer α)
    (v : ZeroCopyWriteView) (n m p : Nat) :
    (rb.size < n →
      rb.advance_read n = (rb, some RbError.outOfRange)) ∧
    (v.committed = false → v.has_commit_fn = true → v.view_capacity < m →
      ZeroCopyWriteView.commit rb v m = (rb, v, some RbError.outOfRange)) ∧
    (rb.available < p →
      rb.reserve_write_space p = (rb, none, some RbError.outOfRange)) := by
  refine ⟨?_, ?_, ?_⟩
  · intro h
    simp [PodRingBuffer.advance_read, h]
  · intro h1 h2 h3
    simp [ZeroCopyWriteView.commit, h1, h2, h3]
  · intro h
    simp [PodRingBuffer.reserve_write_space, h]

/-- Witness for C6: a capacity-2 ring holding one element rejects
    advance_read(2) and reserve_write_space(2), and an uncommitted
    one-slot view rejects commit(2); state is returned unchanged. -/
theorem c6_out_of_range_errors_witness :
    (PodRingBuffer.advance_read ((PodRingBuffer.make Nat 2).deposit 7) 2 =
      (((PodRingBuffer.make Nat 2).deposit 7), some RbError.outOfRange)) ∧
    (ZeroCopyWriteView.commit ((PodRingBuffer.make Nat 2).deposit 7)
        ⟨0, 1, 1, true, false⟩ 2 =
      (((PodRingBuffer.make Nat 2).deposit 7), ⟨0, 1, 1, true, false⟩,
        some RbError.outOfRange)) ∧
    (PodRingBuffer.reserve_write_space ((PodRingBuffer.make Nat 2).deposit 7) 2 =
      (((PodRingBuffer.make Nat 2).deposit 7), none, some RbError.outOfRange)) := by
  have h := c6_out_of_range_errors ((PodRingBuffer.make Nat 2).deposit 7)
    ⟨0, 1, 1, true, false⟩ 2 2 2
  exact ⟨h.1 (by decide), h.2.1 (by decide) (by decide) (by decide),
    h.2.2 (by decide)⟩

/-- Claim C10: when the trivially-copyable ring is full
    (available() = 0), get_write_view returns the default-constructed
    empty view: capacity 0, already committed, no commit callback.
    Committing it or destroying it performs no head update, so the
    ring is returned unchanged through every path. -/
theorem c10_full_ring_empty_view {α : Type} (rb : PodRingBuffer α)
    (max_elements n : Nat) (hfull : rb.available = 0) :
    rb.get_write_view max_elements = ZeroCopyWriteView.mkDefault ∧
    (rb.get_write_view max_elements).view_capacity = 0 ∧
    (rb.get_write_view max_elements).committed = true ∧
    ZeroCopyWriteView.commit rb (rb.get_write_view max_elements) n =
      (rb, rb.get_write_view max_elements, none) ∧
    ZeroCopyWriteView.drop rb (rb.get_write_view max_elements) = rb := by
  have hview : rb.get_write_view max_elements = ZeroCopyWriteView.mkDefault := by
    simp [PodRingBuffer.get_write_view, hfull]
  refine ⟨hview, ?_, ?_, ?_, ?_⟩
  · rw [hview]; rfl
  · rw [hview]; rfl
  · rw [hview]
    simp [ZeroCopyWriteView.commit, ZeroCopyWriteView.mkDefault]
  · rw [hview]
    simp [ZeroCopyWriteView.drop, ZeroCopyWriteView.mkDefault]

/-- Witness for C10 at a concrete full ring: capacity 1, head 1,
    tail 0, so available() = 0. -/
theorem c10_full_ring_empty_view_witness :
    ((PodRingBuffer.make Nat 1).deposit 7).get_write_view 5 =
      ZeroCopyWriteView.mkDefault ∧
    (((PodRingBuffer.make Nat 1).deposit 7).get_write_view 5).view_capacity = 0 ∧
    (((PodRingBuffer.make Nat 1).deposit 7).get_write_view 5).committed = true ∧
    ZeroCopyWriteView.commit ((PodRingBuffer.make Nat 1).deposit 7)
        (((PodRingBuffer.make Nat 1).deposit 7).get_write_view 5) 3 =
      (((PodRingBuffer.make Nat 1).deposit 7),
        ((PodRingBuffer.make Nat 1).deposit 7).get_write_view 5, none) ∧
    ZeroCopyWriteView.drop ((PodRingBuffer.make Nat 1).deposit 7)
        (((PodRingBuffer.make Nat 1).deposit 7).get_write_view 5) =
      ((PodRingBuffer.make Nat 1).deposit 7) :=
  c10_full_ring_empty_view ((PodRingBuffer.make Nat 1).deposit 7) 5 3 (by decide)

/-- Claim C2 is violated by the code: after move-construction or move
    assignment of either ring, the moved-from source keeps its old
    head and tail counters (only its storage pointer is nulled); a
    source that held two elements still reports head = 2, tail = 0 and
    size 2, not the empty head = tail = 0 state the claim requires.
    The generic ring destructor then runs clear() against a null
    buffer.  This theorem evaluates all four move operations at that
    failing input. -/
theorem c2_move_leaves_source_counters :
    ((basicMoveConstruct ⟨4, 2, 0, true⟩).2.head = 2 ∧
      (basicMoveConstruct ⟨4, 2, 0, true⟩).2.tail = 0 ∧
      (basicMoveConstruct ⟨4, 2, 0, true⟩).2.storage_valid = false ∧
      ¬ (basicMoveConstruct ⟨4, 2, 0, true⟩).2.head = 0) ∧
    ((basicMoveAssign ⟨8, 1, 1, true⟩ ⟨4, 2, 0, true⟩).2.head = 2 ∧
      (basicMoveAssign ⟨8, 1, 1, true⟩ ⟨4, 2, 0, true⟩).2.tail = 0 ∧
      ¬ (basicMoveAssign ⟨8, 1, 1, true⟩ ⟨4, 2, 0, true⟩).2.head = 0) ∧
    ((podMoveConstruct ⟨4, 2, 0, true⟩).2.head = 2 ∧
      (podMoveConstruct ⟨4, 2, 0, true⟩).2.tail = 0 ∧
      ¬ (podMoveConstruct ⟨4, 2, 0, true⟩).2.head = 0) ∧
    ((podMoveAssign ⟨8, 1, 1, true⟩ ⟨4, 2, 0, true⟩).2.head = 2 ∧
      (podMoveAssign ⟨8, 1, 1, true⟩ ⟨4, 2, 0, true⟩).2.tail = 0 ∧
      ¬ (podMoveAssign ⟨8, 1, 1, true⟩ ⟨4, 2, 0, true⟩).2.head = 0) ∧
    ((basicMoveConstruct ⟨4, 2, 0, true⟩).1.head = 2 ∧
      (basicMoveConstruct ⟨4, 2, 0, true⟩).1.storage_valid = true) := by
  decide

/-- Claim C3 is violated by the code: on the state src_capacity = 4,
    dst_capacity = 4, src_tail = 4, src_head = 0, dst_tail = 0,
    dst_head = 0, one iteration should transfer n = 4 and advance the
    cached counters src_head and dst_tail to 4, then propagate
    dst_tail = 4 downstream.  The code never writes src_head or
    dst_tail inside the issue loop (only the dead locals
    current_src_tail and current_dst_tail), so the loop issues the
    same transfer 16 times, then resets src_tail = src_head and
    dst_tail = dst_head and propagates 0 downstream.  The spec-modelled
    single step forwardStepSpec shows the prescribed counters. -/
theorem c3_forward_counter_evaluation :
    transferSize ⟨4, 4, 4, 0, 0, 0⟩ = 4 ∧
    numTransfers ⟨4, 4, 4, 0, 0, 0⟩ = 16 ∧
    (forward ⟨4, 4, 4, 0, 0, 0⟩ 0 0).1.src_head = 0 ∧
    (forward ⟨4, 4, 4, 0, 0, 0⟩ 0 0).1.src_tail = 0 ∧
    (forward ⟨4, 4, 4, 0, 0, 0⟩ 0 0).1.dst_tail = 0 ∧
    (forward ⟨4, 4, 4, 0, 0, 0⟩ 0 0).2 = some 0 ∧
    (forwardStepSpec ⟨4, 4, 4, 0, 0, 0⟩).src_head = 4 ∧
    (forwardStepSpec ⟨4, 4, 4, 0, 0, 0⟩).dst_tail = 4 := by
  decide

/-- Witness for the amended C1 at a concrete full vector with N = 2
    holding two elements: push_back grows to capacity 4 on the heap,
    and reserve 9 moves a fresh N = 2 vector to a heap block of
    capacity 9. -/
theorem c1_small_vector_growth_witness :
    (((⟨2, 2, [5, 6]⟩ : small_vector Nat).push_back 7).elems = [5, 6, 7]) ∧
    ((⟨2, 2, [5, 6]⟩ : small_vector Nat).push_back 7).capacity = 4 ∧
    ((⟨2, 2, [5, 6]⟩ : small_vector Nat).push_back 7).is_using_stack_storage = false ∧
    ((⟨2, 2, [5, 6]⟩ : small_vector Nat).reserve 9).capacity = 9 := by
  have h := c1_small_vector_growth (⟨2, 2, [5, 6]⟩ : small_vector Nat) 7 9
  refine ⟨h.1, ?_, ?_, ?_⟩
  · have := (h.2.1 (by decide) (by decide)).1
    simpa using this
  · exact (h.2.1 (by decide) (by decide)).2
  · exact (h.2.2.2 (by decide) (by decide)).1

end WarpPipe
